import Mathlib

/-
  Verification development for the quantum_psi package.

  The Python class Psi stores five parallel attributes (n, l, ml, ms, const),
  each either a scalar or a same-length sequence.  We embed the well-formed
  states as either a single term (scalar attributes) or a list of terms
  (parallel numpy arrays of equal length).  Floating point numbers are
  modelled as exact rationals; radial formulas over the reals appear later
  in the file.  Fallible Python operations return Except values; the error
  constructors record which Python exception is raised (the two explicit
  raise statements in _core.py, numpy TypeError from a bad np.equal call,
  and numpy ValueError from building a ragged array).
-/

namespace QuantumPsi

/-- One basis term of a Psi object: principal quantum number n, secondary l,
magnetic ml, spin ms, and the multiplicative constant c (attribute const). -/
structure Term where
  n : ℕ
  l : ℕ
  ml : ℤ
  ms : ℚ
  c : ℚ
deriving DecidableEq

/-- A well-formed Psi object: either all five attributes are scalars (one
term), or all five are parallel equal-length sequences (a list of terms). -/
inductive Psi where
  | scalar (t : Term)
  | seq (ts : List Term)
deriving DecidableEq

/-- Python exceptions that the embedded operations can raise.  invalidOperand
and invalidOperation are the two explicit raise Exception sites in _core.py;
typeError models numpy rejecting np.equal called with three positional
arguments; valueError models numpy refusing to build a ragged array. -/
inductive PyErr where
  | invalidOperand
  | invalidOperation
  | typeError
  | valueError
deriving DecidableEq

/-- Python runtime values that can appear as the right operand of the Psi
operators.  npFloat models numpy.float64 (a strict subclass of float, so
type(x) is float fails on it); bool models Python bool (a strict subclass of
int); str stands for any other non-numeric object. -/
inductive PyVal where
  | int (z : ℤ)
  | float (q : ℚ)
  | npFloat (q : ℚ)
  | bool (b : Bool)
  | str
  | psi (p : Psi)
deriving DecidableEq

/-- The check at the top of Psi.mul and Psi.div in _core.py:
type(other) is int or type(other) is float.  An exact type-identity test:
subclasses such as numpy.float64 and bool are rejected. -/
def PyVal.asIntOrFloat : PyVal → Option ℚ
  | .int z => some (z : ℚ)
  | .float q => some q
  | _ => none

/-- Rebuild a Psi applying f to every stored constant, keeping the quantum
numbers: the source idiom Psi(self.n, self.l, self.ml, self.ms, f(const)). -/
def Psi.constMap (f : ℚ → ℚ) : Psi → Psi
  | .scalar t => .scalar (Term.mk t.n t.l t.ml t.ms (f t.c))
  | .seq ts => .seq (ts.map fun t => Term.mk t.n t.l t.ml t.ms (f t.c))

/-- Psi.mul embeds the source method that multiplies const by the operand,
raising for any operand whose exact type is not int or float. -/
def Psi.mul (p : Psi) (other : PyVal) : Except PyErr Psi :=
  match other.asIntOrFloat with
  | none => .error .invalidOperand
  | some q => .ok (p.constMap fun c => c * q)

/-- Psi.div embeds the source method that divides const by the operand,
with the same exact type check as Psi.mul. -/
def Psi.div (p : Psi) (other : PyVal) : Except PyErr Psi :=
  match other.asIntOrFloat with
  | none => .error .invalidOperand
  | some q => .ok (p.constMap fun c => c / q)

/-- Psi.add embeds the source method: it checks type(other) is Psi, then
builds each attribute as np.array((self.attr, other.attr)).flatten().  Two
scalars stack into a length-2 array; two equal-length arrays concatenate;
any other shape combination is ragged and numpy refuses it. -/
def Psi.add (p : Psi) (other : PyVal) : Except PyErr Psi :=
  match other with
  | .psi q =>
    match p, q with
    | .scalar t, .scalar u => .ok (.seq [t, u])
    | .seq ts, .seq us =>
      if ts.length = us.length then .ok (.seq (ts ++ us)) else .error .valueError
    | _, _ => .error .valueError
  | _ => .error .invalidOperand

/-- Negate the constant of a term, keeping the quantum numbers. -/
def Term.negC (t : Term) : Term := Term.mk t.n t.l t.ml t.ms (-t.c)

/-- Psi.sub embeds the source method: same shape handling as Psi.add but the
constants inherited from the right operand are negated. -/
def Psi.sub (p : Psi) (other : PyVal) : Except PyErr Psi :=
  match other with
  | .psi q =>
    match p, q with
    | .scalar t, .scalar u => .ok (.seq [t, u.negC])
    | .seq ts, .seq us =>
      if ts.length = us.length then .ok (.seq (ts ++ us.map Term.negC))
      else .error .valueError
    | _, _ => .error .valueError
  | _ => .error .invalidOperand

/-- np.sum(const ** 2): the sum of the squares of all stored constants. -/
def Psi.sumSqConst : Psi → ℚ
  | .scalar t => t.c ^ 2
  | .seq ts => (ts.map fun t => t.c ^ 2).sum

/-- Psi.normalize embeds the source method, which returns
Psi(n, l, ml, ms, const / np.sum(const ** 2)): every constant is divided by
the raw sum of squares (no square root is taken in the source). -/
def Psi.normalize (p : Psi) : Psi :=
  p.constMap fun c => c / p.sumSqConst

/-- Psi.r_bohr embeds the source method.  Scalar attributes: returns
n ** 2 * a0.  Sequence attributes: the source calls np.equal(*self.n), which
is only a valid call when self.n has exactly two entries (a third positional
argument is the numpy out parameter and raises TypeError); when the two n
agree it returns self.n[0] ** 2 * a0, otherwise it raises the explicit
invalid-operation Exception. -/
def Psi.r_bohr (p : Psi) (a0 : ℚ) : Except PyErr ℚ :=
  match p with
  | .scalar t => .ok ((t.n : ℚ) ^ 2 * a0)
  | .seq ts =>
    match ts with
    | [t1, t2] =>
      if t1.n = t2.n then .ok ((t1.n : ℚ) ^ 2 * a0) else .error .invalidOperation
    | _ => .error .typeError

/-- The list of principal quantum numbers stored in a Psi object. -/
def Psi.ns : Psi → List ℕ
  | .scalar t => [t.n]
  | .seq ts => ts.map Term.n

/-- The list of secondary quantum numbers stored in a Psi object. -/
def Psi.ls : Psi → List ℕ
  | .scalar t => [t.l]
  | .seq ts => ts.map Term.l

/-- The list of magnetic quantum numbers stored in a Psi object. -/
def Psi.mls : Psi → List ℤ
  | .scalar t => [t.ml]
  | .seq ts => ts.map Term.ml

/-- The list of spin quantum numbers stored in a Psi object. -/
def Psi.mss : Psi → List ℚ
  | .scalar t => [t.ms]
  | .seq ts => ts.map Term.ms

/-- The list of constants stored in a Psi object. -/
def Psi.consts : Psi → List ℚ
  | .scalar t => [t.c]
  | .seq ts => ts.map Term.c

/-- The basis terms of a Psi object as a list. -/
def Psi.terms : Psi → List Term
  | .scalar t => [t]
  | .seq ts => ts

/-- Number of basis terms of a Psi object. -/
def Psi.termCount (p : Psi) : ℕ := p.terms.length

/-- Shape compatibility for Psi.add and Psi.sub: both operands scalar, or
both sequences of the same length (np.array builds a rectangular array). -/
def Psi.compat : Psi → Psi → Prop
  | .scalar _, .scalar _ => True
  | .seq ts, .seq us => ts.length = us.length
  | _, _ => False

instance : ∀ p q : Psi, Decidable (Psi.compat p q) := by
  intro p q
  cases p <;> cases q <;> simp only [Psi.compat] <;> infer_instance

/-- Claim C2: Psi.normalize keeps the quantum numbers n, l, ml, ms and maps
every stored constant c to c divided by the raw sum of squares of all
constants (no square root). -/
theorem normalize_divides_by_raw_sum_of_squares (p : Psi) :
    p.normalize.ns = p.ns ∧ p.normalize.ls = p.ls ∧ p.normalize.mls = p.mls ∧
      p.normalize.mss = p.mss ∧
      p.normalize.consts =
        p.consts.map fun c => c / ((p.consts.map fun x => x ^ 2).sum) := by
  cases p with
  | scalar t =>
    refine ⟨rfl, rfl, rfl, rfl, ?_⟩
    simp [Psi.normalize, Psi.constMap, Psi.consts, Psi.sumSqConst]
  | seq ts =>
    refine ⟨?_, ?_, ?_, ?_, ?_⟩ <;>
      · simp [Psi.normalize, Psi.constMap, Psi.consts, Psi.ns, Psi.ls,
          Psi.mls, Psi.mss, Psi.sumSqConst, List.map_map, Function.comp]
        try exact fun a _ => rfl

/-- Claim C3 counterexample: adding a two-term superposition and a scalar
state does not concatenate the term lists; np.array refuses the ragged pair
of attribute shapes, so the addition fails instead of returning a
three-term state. -/
theorem add_mixed_shape_fails :
    Psi.add (Psi.seq [Term.mk 2 1 (-1) (1/2) 1, Term.mk 2 1 0 (-1/2) 1])
        (PyVal.psi (Psi.scalar (Term.mk 1 0 0 0 1))) =
      Except.error PyErr.valueError ∧
    Psi.add (Psi.seq [Term.mk 2 1 (-1) (1/2) 1, Term.mk 2 1 0 (-1/2) 1])
        (PyVal.psi (Psi.scalar (Term.mk 1 0 0 0 1))) ≠
      Except.ok (Psi.seq
        ((Psi.seq [Term.mk 2 1 (-1) (1/2) 1, Term.mk 2 1 0 (-1/2) 1]).terms ++
          (Psi.scalar (Term.mk 1 0 0 0 1)).terms)) := by
  constructor
  · rfl
  · simp [Psi.add]

/-- Claim C3 (amended): when the operands are both scalar states or both
sequence states with equal term counts, Psi.add returns the concatenation of
the term lists of a and b, with term count a.termCount + b.termCount; a
non-Psi right operand fails with the invalid-operand error. -/
theorem add_concatenates_compatible (a b : Psi) (k : PyVal)
    (h : Psi.compat a b) (hk : ∀ q : Psi, k ≠ PyVal.psi q) :
    Psi.add a (PyVal.psi b) = Except.ok (Psi.seq (a.terms ++ b.terms)) ∧
      (Psi.seq (a.terms ++ b.terms)).termCount = a.termCount + b.termCount ∧
      Psi.add a k = Except.error PyErr.invalidOperand := by
  refine ⟨?_, ?_, ?_⟩
  · cases a with
    | scalar t =>
      cases b with
      | scalar u => rfl
      | seq us => exact h.elim
    | seq ts =>
      cases b with
      | scalar u => exact h.elim
      | seq us =>
        have hl : ts.length = us.length := h
        simp [Psi.add, Psi.terms, hl]
  · cases a <;> cases b <;>
      · simp [Psi.termCount, Psi.terms]
        try omega
  · cases k with
    | int z => rfl
    | float q => rfl
    | npFloat q => rfl
    | bool b2 => rfl
    | str => rfl
    | psi q => exact absurd rfl (hk q)

/-- Claim C3 witness: the amended addition law at two concrete scalar states
and the concrete non-Psi operand 0. -/
theorem add_concatenates_compatible_witness :
    Psi.add (Psi.scalar (Term.mk 2 1 (-1) (1/2) 1))
        (PyVal.psi (Psi.scalar (Term.mk 2 1 0 (-1/2) 1))) =
      Except.ok (Psi.seq [Term.mk 2 1 (-1) (1/2) 1, Term.mk 2 1 0 (-1/2) 1]) ∧
      Psi.add (Psi.scalar (Term.mk 2 1 (-1) (1/2) 1)) (PyVal.int 0) =
        Except.error PyErr.invalidOperand := by
  have h := add_concatenates_compatible (Psi.scalar (Term.mk 2 1 (-1) (1/2) 1))
    (Psi.scalar (Term.mk 2 1 0 (-1/2) 1)) (PyVal.int 0) trivial
    (fun q hq => PyVal.noConfusion hq)
  exact ⟨h.1, h.2.2⟩

/-- Claim C4: Psi.sub equals Psi.add composed with scalar multiplication of
the right operand by the integer -1; equivalently, the right operand enters
with every constant negated and all quantum numbers unchanged. -/
theorem sub_eq_add_scalar_neg (a b : Psi) :
    Psi.sub a (PyVal.psi b) =
      (Psi.mul b (PyVal.int (-1))).bind (fun q => Psi.add a (PyVal.psi q)) ∧
      Psi.sub a (PyVal.psi b) =
        Psi.add a (PyVal.psi (b.constMap fun c => -c)) := by
  have hm : ∀ us : List Term,
      List.map Term.negC us =
        List.map (fun t : Term => Term.mk t.n t.l t.ml t.ms (-t.c)) us :=
    fun us => List.map_congr_left fun t _ => rfl
  constructor <;>
    cases a <;> cases b <;>
      simp [Psi.sub, Psi.mul, Psi.add, PyVal.asIntOrFloat, Psi.constMap,
        Except.bind, Term.negC, hm]

/-- Claim C5: the source computes the Bohr radius of a superposition by
calling np.equal(*self.n); a three-term superposition passes three positional
arguments to np.equal and raises TypeError even though every term shares
n = 2, where the claim (and the method docstring) promise the value
n0 ^ 2 * a0 = 4 * 0.529.  The two-term cases behave as documented. -/
theorem r_bohr_three_terms_type_error :
    Psi.r_bohr (Psi.seq [Term.mk 2 1 0 (1/2) 1, Term.mk 2 1 1 (1/2) 1,
        Term.mk 2 0 0 (1/2) 1]) (529/1000) =
      Except.error PyErr.typeError ∧
      Psi.r_bohr (Psi.scalar (Term.mk 2 1 0 (1/2) 1)) (529/1000) =
        Except.ok (529/250) ∧
      Psi.r_bohr (Psi.seq [Term.mk 2 1 0 (1/2) 1, Term.mk 2 1 1 (1/2) 1])
          (529/1000) = Except.ok (529/250) ∧
      Psi.r_bohr (Psi.seq [Term.mk 2 1 0 (1/2) 1, Term.mk 3 1 1 (1/2) 1])
          (529/1000) = Except.error PyErr.invalidOperation := by
  refine ⟨rfl, ?_, ?_, ?_⟩
  · norm_num [Psi.r_bohr]
  · norm_num [Psi.r_bohr]
  · norm_num [Psi.r_bohr]

/-- Claim C6: the operand check type(other) is int / type(other) is float
rejects the float subclass numpy.float64 (and bool), so multiplying or
dividing by an np.float64 raises the invalid-operand Exception even though
it is a floating value; plain int and float operands scale the constants as
documented.  The repository test tests/psi_vis.py multiplies a Psi by
np.sqrt(2/3), an np.float64, and therefore hits this error. -/
theorem mul_div_reject_np_float64 :
    Psi.mul (Psi.scalar (Term.mk 2 1 0 (-1/2) 1)) (PyVal.npFloat (8165/10000)) =
      Except.error PyErr.invalidOperand ∧
      Psi.div (Psi.scalar (Term.mk 2 1 0 (-1/2) 1)) (PyVal.npFloat 2) =
        Except.error PyErr.invalidOperand ∧
      Psi.mul (Psi.scalar (Term.mk 2 1 0 (-1/2) 1)) (PyVal.bool true) =
        Except.error PyErr.invalidOperand ∧
      Psi.mul (Psi.scalar (Term.mk 2 1 0 (-1/2) 1)) (PyVal.float (1/2)) =
        Except.ok (Psi.scalar (Term.mk 2 1 0 (-1/2) (1/2))) ∧
      Psi.div (Psi.scalar (Term.mk 2 1 0 (-1/2) 1)) (PyVal.int 2) =
        Except.ok (Psi.scalar (Term.mk 2 1 0 (-1/2) (1/2))) := by
  refine ⟨rfl, rfl, rfl, ?_, ?_⟩
  · simp [Psi.mul, PyVal.asIntOrFloat, Psi.constMap]
  · simp [Psi.div, PyVal.asIntOrFloat, Psi.constMap]

/-
  Sampling pipeline, from src/quantum_psi/graph/_graph.py.  Arrays of float
  samples are modelled as lists of rationals.
-/

/-- np.max of a nonempty array; np.max raises on an empty array, which
clean_data below reports as an error. -/
def listMax : List ℚ → ℚ
  | [] => 0
  | x :: xs => xs.foldl max x

/-- np.delete(xs, np.where(mask)[0]): drop the positions whose mask entry is
true, keeping the order of the remaining entries (equal-length inputs). -/
def compress {α : Type} (mask : List Bool) (xs : List α) : List α :=
  ((mask.zip xs).filter fun p => !p.1).map Prod.snd

/-- clean_data embeds the source function: with normalize set, value is first
rescaled by its maximum; the positions where the (possibly rescaled) value is
strictly below epsilon are dropped from the value array and from every
coordinate array; with norm_value false the surviving positions carry the
original values while the rescaled ones still decide survival. -/
def clean_data (value : List ℚ) (coord : List (List ℚ))
    (epsilon : ℚ) (normalize norm_value : Bool) :
    Except PyErr (List ℚ × List (List ℚ)) :=
  if normalize ∧ value = [] then .error .valueError
  else
    let newValue :=
      if normalize then value.map (fun x => x / listMax value) else value
    let mask := newValue.map fun x => decide (x < epsilon)
    .ok ((if norm_value then compress mask newValue else compress mask value),
      coord.map (compress mask))

/-- The surviving index set of the threshold test: positions i whose entry in
w is not strictly below epsilon. -/
def keptIdx (w : List ℚ) (epsilon : ℚ) : List ℕ :=
  (List.range w.length).filter fun i => !decide (w.getD i 0 < epsilon)

theorem compress_cons {α : Type} (b : Bool) (m : List Bool) (y : α)
    (ys : List α) :
    compress (b :: m) (y :: ys) =
      if b then compress m ys else y :: compress m ys := by
  cases b <;> simp [compress]

theorem compress_map_lt (eps : ℚ) :
    ∀ w a : List ℚ, a.length = w.length →
      compress (w.map fun x => decide (x < eps)) a =
        (keptIdx w eps).map (a.getD · 0) := by
  intro w
  induction w with
  | nil =>
    intro a ha
    rw [List.length_nil, List.length_eq_zero] at ha
    subst ha
    rfl
  | cons x w2 ih =>
    intro a ha
    cases a with
    | nil => simp at ha
    | cons y a2 =>
      have ha2 : a2.length = w2.length := by simpa using ha
      rw [List.map_cons, compress_cons]
      have hfun : ((fun i => !decide ((x :: w2).getD i 0 < eps)) ∘ Nat.succ) =
          fun i => !decide (w2.getD i 0 < eps) := by
        funext i
        simp [Function.comp, List.getD_cons_succ]
      have hkept : keptIdx (x :: w2) eps =
          (if !decide (x < eps) then [0] else []) ++
            (keptIdx w2 eps).map Nat.succ := by
        simp only [keptIdx, List.length_cons, List.range_succ_eq_map,
          List.filter_cons, List.getD_cons_zero]
        rw [List.filter_map, hfun]
        by_cases hx : x < eps <;> simp [hx]
      rw [hkept, List.map_append, List.map_map]
      have hmap : ((keptIdx w2 eps).map
          (((y :: a2).getD · 0) ∘ Nat.succ)) = (keptIdx w2 eps).map (a2.getD · 0) := by
        apply List.map_congr_left
        intro i _
        simp [Function.comp, List.getD_cons_succ]
      rw [hmap]
      by_cases hx : x < eps
      · rw [if_pos (decide_eq_true hx), if_neg (by simp [hx])]
        simp only [List.map_nil, List.nil_append]
        exact ih a2 ha2
      · rw [if_neg (by simp [hx]), if_pos (by simp [hx])]
        simp only [List.map_cons, List.map_nil, List.getD_cons_zero,
          List.singleton_append]
        rw [ih a2 ha2]

theorem filter_range_eq_single (p : ℕ → Bool) (j : ℕ) (hpj : p j = true) :
    ∀ n, j < n → (∀ i, i < n → i ≠ j → p i = false) →
      (List.range n).filter p = [j] := by
  intro n
  induction n with
  | zero => intro h _; exact absurd h (Nat.not_lt_zero j)
  | succ m ih =>
    intro hj ho
    rw [List.range_succ, List.filter_append]
    by_cases hjm : j = m
    · subst hjm
      have hnil : (List.range j).filter p = [] := by
        rw [List.filter_eq_nil_iff]
        intro a ha
        have haj : a < j := List.mem_range.mp ha
        simp [ho a (by omega) (by omega)]
      rw [hnil]
      simp [hpj]
    · have hj2 : j < m := by omega
      have hm : p m = false := ho m (Nat.lt_succ_self m) (fun h => hjm h.symm)
      rw [ih hj2 (fun i hi hij => ho i (by omega) hij)]
      simp [hm]

theorem foldl_max_mem (xs : List ℚ) : ∀ x : ℚ, xs.foldl max x ∈ x :: xs := by
  induction xs with
  | nil => intro x; simp
  | cons y ys ih =>
    intro x
    simp only [List.foldl_cons]
    have h := ih (max x y)
    rcases List.mem_cons.mp h with h1 | h1
    · rcases max_choice x y with hc | hc
      · rw [h1, hc]; exact List.mem_cons_self _ _
      · rw [h1, hc]
        exact List.mem_cons_of_mem _ (List.mem_cons_self _ _)
    · exact List.mem_cons_of_mem _ (List.mem_cons_of_mem _ h1)

theorem listMax_mem (v : List ℚ) (hv : v ≠ []) : listMax v ∈ v := by
  cases v with
  | nil => exact absurd rfl hv
  | cons x xs => exact foldl_max_mem xs x

theorem getD_map_div (v : List ℚ) (M : ℚ) :
    ∀ i : ℕ, (v.map fun x => x / M).getD i 0 = v.getD i 0 / M := by
  induction v with
  | nil => intro i; simp
  | cons x xs ih =>
    intro i
    cases i with
    | zero => rfl
    | succ k => simpa using ih k

theorem clean_data_normalize_eq (v : List ℚ) (coords : List (List ℚ))
    (eps : ℚ) (nv : Bool) (hv : v ≠ []) :
    clean_data v coords eps true nv =
      Except.ok
        ((keptIdx (v.map fun x => x / listMax v) eps).map
            ((if nv then v.map fun x => x / listMax v else v).getD · 0),
          coords.map (compress ((v.map fun x => x / listMax v).map fun x =>
            decide (x < eps)))) := by
  have hlenv : (v.map fun x => x / listMax v).length = v.length :=
    List.length_map _ _
  rw [show clean_data v coords eps true nv =
      Except.ok
        ((if nv then
            compress ((v.map fun x => x / listMax v).map fun x =>
              decide (x < eps)) (v.map fun x => x / listMax v)
          else
            compress ((v.map fun x => x / listMax v).map fun x =>
              decide (x < eps)) v),
          coords.map (compress ((v.map fun x => x / listMax v).map fun x =>
            decide (x < eps)))) from by
    simp only [clean_data]
    rw [if_neg (by simp [hv])]
    simp]
  cases nv
  · rw [if_neg (by simp), if_neg (by simp),
      compress_map_lt eps _ v hlenv.symm]
  · rw [if_pos rfl, if_pos rfl, compress_map_lt eps _ _ rfl]

/-- Claim C7: with normalize set, clean_data rescales value by its maximum,
drops exactly the positions whose rescaled entry is strictly below epsilon
from value and from every same-length coordinate array in lockstep and in
order (the surviving positions carry the rescaled values, or the original
values when norm_value is false); and with epsilon 1/2, when one entry
attains the (positive) maximum and every other entry is below half the
maximum, only the maximal entry and its paired coordinates survive. -/
theorem clean_data_filters_by_rescaled_threshold (v : List ℚ)
    (coords : List (List ℚ)) (eps : ℚ) (hv : v ≠ [])
    (hc : ∀ c ∈ coords, c.length = v.length) :
    (clean_data v coords eps true true =
      Except.ok
        ((keptIdx (v.map fun x => x / listMax v) eps).map
            ((v.map fun x => x / listMax v).getD · 0),
          coords.map fun c =>
            (keptIdx (v.map fun x => x / listMax v) eps).map (c.getD · 0))) ∧
    (clean_data v coords eps true false =
      Except.ok
        ((keptIdx (v.map fun x => x / listMax v) eps).map (v.getD · 0),
          coords.map fun c =>
            (keptIdx (v.map fun x => x / listMax v) eps).map (c.getD · 0))) ∧
    (∀ j, j < v.length → eps = 1/2 → 0 < listMax v →
      v.getD j 0 = listMax v →
      (∀ i ∈ List.range v.length, i ≠ j → v.getD i 0 < listMax v / 2) →
      clean_data v coords eps true false =
        Except.ok ([listMax v], coords.map fun c => [c.getD j 0])) := by
  have hlenv : (v.map fun x => x / listMax v).length = v.length :=
    List.length_map _ _
  have hcoord : coords.map
      (compress ((v.map fun x => x / listMax v).map fun x =>
        decide (x < eps))) =
      coords.map fun c =>
        (keptIdx (v.map fun x => x / listMax v) eps).map (c.getD · 0) := by
    apply List.map_congr_left
    intro c hcmem
    exact compress_map_lt eps _ c ((hc c hcmem).trans hlenv.symm)
  have hmain : ∀ nv : Bool, clean_data v coords eps true nv =
      Except.ok
        ((keptIdx (v.map fun x => x / listMax v) eps).map
            ((if nv then v.map fun x => x / listMax v else v).getD · 0),
          coords.map fun c =>
            (keptIdx (v.map fun x => x / listMax v) eps).map (c.getD · 0)) := by
    intro nv
    rw [clean_data_normalize_eq v coords eps nv hv, hcoord]
  refine ⟨?_, ?_, ?_⟩
  · rw [hmain true, if_pos rfl]
  · rw [hmain false, if_neg (by simp)]
  · intro j hj heps hM hjv hothers
    have hne : listMax v ≠ 0 := ne_of_gt hM
    have hhalf : listMax v / 2 / listMax v = 1 / 2 := by
      rw [div_div, mul_comm 2 (listMax v), ← div_div, div_self hne]
    have hsingle : keptIdx (v.map fun x => x / listMax v) eps = [j] := by
      rw [keptIdx, hlenv]
      apply filter_range_eq_single
      · have hnot : ¬(1 : ℚ) < 1 / 2 := by norm_num
        rw [getD_map_div, hjv, div_self hne, heps, decide_eq_false hnot]
        rfl
      · exact hj
      · intro i hi hij
        have hlt : v.getD i 0 / listMax v < 1 / 2 := by
          rw [← hhalf]
          exact (div_lt_div_iff_of_pos_right hM).mpr
            (hothers i (List.mem_range.mpr hi) hij)
        rw [getD_map_div, heps, decide_eq_true hlt]
        rfl
    rw [hmain false, if_neg (by simp), hsingle]
    simp only [List.map_cons, List.map_nil, hjv]

/-- Claim C7 witness: the filtering law at the concrete input
value = [4, 1, 1], one coordinate array [7, 8, 9], epsilon = 1/2: only the
maximal entry 4 and its paired coordinate 7 survive. -/
theorem clean_data_filters_by_rescaled_threshold_witness :
    clean_data [4, 1, 1] [[7, 8, 9]] (1/2) true false =
      Except.ok ([listMax [4, 1, 1]], [[([(7 : ℚ), 8, 9]).getD 0 0]]) ∧
      listMax [4, 1, 1] = 4 ∧ ([(7 : ℚ), 8, 9]).getD 0 0 = 7 := by
  have hlm : listMax [4, 1, 1] = (4 : ℚ) := by norm_num [listMax, max_def]
  have h := (clean_data_filters_by_rescaled_threshold [4, 1, 1] [[7, 8, 9]]
    (1/2) (by simp) (by simp)).2.2 0 (by norm_num) rfl
    (by norm_num [hlm])
    (by norm_num [hlm])
    (by
      intro i hi hne
      have hi3 : i < 3 := by simpa using hi
      interval_cases i
      · exact absurd rfl hne
      · norm_num [hlm, List.getD_cons_succ, List.getD_cons_zero]
      · norm_num [hlm, List.getD_cons_succ, List.getD_cons_zero])
  refine ⟨?_, hlm, rfl⟩
  simpa using h

/-- Claim C10: with normalize set and epsilon at most 1, clean_data on a
nonempty value array with positive maximum always returns a nonempty value
array: the maximal entry rescales to exactly 1, the removal test is a strict
comparison with epsilon, so that entry always survives. -/
theorem clean_data_keeps_max_element (v : List ℚ) (coords : List (List ℚ))
    (eps : ℚ) (nv : Bool) (hv : v ≠ []) (hmax : 0 < listMax v)
    (heps : eps ≤ 1) :
    (clean_data v coords eps true nv).map (fun r => r.1.isEmpty) =
      Except.ok false := by
  obtain ⟨j, hjlt, hjget⟩ := List.mem_iff_getElem.mp (listMax_mem v hv)
  have hgetD : v.getD j 0 = listMax v := by
    rw [List.getD_eq_getElem _ _ hjlt]
    exact hjget
  have hw : (v.map fun x => x / listMax v).getD j 0 = 1 := by
    rw [getD_map_div, hgetD, div_self (ne_of_gt hmax)]
  have hkeep : j ∈ keptIdx (v.map fun x => x / listMax v) eps := by
    apply List.mem_filter.mpr
    refine ⟨List.mem_range.mpr ?_, ?_⟩
    · rw [List.length_map]; exact hjlt
    · rw [hw, decide_eq_false (not_lt.mpr heps)]
      rfl
  rw [clean_data_normalize_eq v coords eps nv hv]
  have hne : (keptIdx (v.map fun x => x / listMax v) eps).map
      ((if nv then v.map fun x => x / listMax v else v).getD · 0) ≠ [] :=
    fun hnil =>
      List.ne_nil_of_mem hkeep (List.map_eq_nil_iff.mp hnil)
  simp only [Except.map, Except.ok.injEq, List.isEmpty_eq_false, ne_eq]
  exact hne

/-- Claim C10 witness: the concrete input [2] with epsilon 1 survives. -/
theorem clean_data_keeps_max_element_witness :
    (clean_data [2] [] 1 true true).map (fun r => r.1.isEmpty) =
      Except.ok false :=
  clean_data_keeps_max_element [2] [] 1 true (by simp)
    (by norm_num [listMax, max_def]) le_rfl

/-
  Random sphere sampling, from sphere_points in graph/_graph.py (duplicated
  verbatim in the top-level _graph.py).  The three numpy draws of n_points
  uniform samples in [0, 1) are passed explicitly as the lists u, t, v, so
  nPoints is the common length of the draws.  np.cbrt on nonnegative input
  is the real power 1/3.
-/

/-- sphere_points embeds the source function: radius rmax times the cube
root of a uniform draw, azimuth a uniform draw times 2 pi, and polar angle
the arccosine of twice a uniform draw minus one. -/
noncomputable def sphere_points (rmax : ℝ) (u t v : List ℝ) :
    List ℝ × List ℝ × List ℝ :=
  (u.map fun x => rmax * x ^ ((1 : ℝ)/3),
   t.map fun x => x * (2 * Real.pi),
   v.map fun x => Real.arccos (x * 2 - 1))

/-- Claim C8: with rmax nonnegative and the three uniform draws in [0, 1),
sphere_points returns exactly the samples r = rmax times the cube root of a
draw, theta = a draw times 2 pi, phi = arccos of twice a draw minus one, and
every r lies in [0, rmax], every theta in [0, 2 pi), and every phi in
[0, pi]. -/
theorem sphere_points_bounds (rmax : ℝ) (u t v : List ℝ)
    (hr : 0 ≤ rmax)
    (hu : u.Forall fun x => 0 ≤ x ∧ x < 1)
    (ht : t.Forall fun x => 0 ≤ x ∧ x < 1)
    (_hvd : v.Forall fun x => 0 ≤ x ∧ x < 1) :
    (sphere_points rmax u t v).1 = (u.map fun x => rmax * x ^ ((1 : ℝ)/3)) ∧
    (sphere_points rmax u t v).2.1 = (t.map fun x => x * (2 * Real.pi)) ∧
    (sphere_points rmax u t v).2.2 =
      (v.map fun x => Real.arccos (x * 2 - 1)) ∧
    ((sphere_points rmax u t v).1.Forall fun r => 0 ≤ r ∧ r ≤ rmax) ∧
    ((sphere_points rmax u t v).2.1.Forall fun a => 0 ≤ a ∧ a < 2 * Real.pi) ∧
    ((sphere_points rmax u t v).2.2.Forall fun b => 0 ≤ b ∧ b ≤ Real.pi) := by
  rw [List.forall_iff_forall_mem] at hu ht
  refine ⟨rfl, rfl, rfl, ?_, ?_, ?_⟩
  · rw [List.forall_iff_forall_mem]
    intro r hrmem
    simp only [sphere_points, List.mem_map] at hrmem
    obtain ⟨x, hx, rfl⟩ := hrmem
    obtain ⟨hx0, hx1⟩ := hu x hx
    constructor
    · exact mul_nonneg hr (Real.rpow_nonneg hx0 _)
    · calc rmax * x ^ ((1 : ℝ)/3) ≤ rmax * 1 :=
          mul_le_mul_of_nonneg_left
            (Real.rpow_le_one hx0 (le_of_lt hx1) (by norm_num)) hr
        _ = rmax := mul_one rmax
  · rw [List.forall_iff_forall_mem]
    intro a hmem
    simp only [sphere_points, List.mem_map] at hmem
    obtain ⟨x, hx, rfl⟩ := hmem
    obtain ⟨hx0, hx1⟩ := ht x hx
    have h2pi : (0 : ℝ) < 2 * Real.pi := by positivity
    refine ⟨mul_nonneg hx0 (le_of_lt h2pi), ?_⟩
    calc x * (2 * Real.pi) < 1 * (2 * Real.pi) :=
        mul_lt_mul_of_pos_right hx1 h2pi
      _ = 2 * Real.pi := one_mul _
  · rw [List.forall_iff_forall_mem]
    intro b hmem
    simp only [sphere_points, List.mem_map] at hmem
    obtain ⟨x, hx, rfl⟩ := hmem
    exact ⟨Real.arccos_nonneg _, Real.arccos_le_pi _⟩

/-- Claim C8 witness: concrete instance rmax = 5 with single draws 0. -/
theorem sphere_points_bounds_witness :
    ((sphere_points 5 [0] [0] [0]).1.Forall fun r => 0 ≤ r ∧ r ≤ 5) ∧
    ((sphere_points 5 [0] [0] [0]).2.1.Forall
      fun a => 0 ≤ a ∧ a < 2 * Real.pi) ∧
    ((sphere_points 5 [0] [0] [0]).2.2.Forall
      fun b => 0 ≤ b ∧ b ≤ Real.pi) := by
  have h := sphere_points_bounds 5 [0] [0] [0] (by norm_num)
    ⟨le_refl 0, by norm_num⟩ ⟨le_refl 0, by norm_num⟩ ⟨le_refl 0, by norm_num⟩
  exact ⟨h.2.2.2.1, h.2.2.2.2.1, h.2.2.2.2.2⟩

/-
  The analytic evaluators of _core.py over the reals.  scipy.special
  provides factorial, genlaguerre and sph_harm; genlaguerre is the standard
  generalized Laguerre polynomial, written out below, while sph_harm and the
  quadrature routine scipy.integrate.quad are consumed as external
  capabilities and therefore passed as parameters Y and quad.  Python method
  calls are embedded in state-passing style: each method returns the state
  of the receiver after the call together with its result, so that the
  assignment self = self.normalize() in the source, which rebinds a local
  name and assigns no attribute, yields an unchanged receiver.
-/

/-- scipy genlaguerre(deg, alpha) evaluated at x: the generalized Laguerre
polynomial, whose coefficient of x^i is (-1)^i C(deg+alpha, deg-i) / i!. -/
noncomputable def genlaguerre (deg alpha : ℕ) (x : ℝ) : ℝ :=
  ∑ i in Finset.range (deg + 1),
    (-1 : ℝ) ^ i * ((deg + alpha).choose (deg - i)) * x ^ i /
      (Nat.factorial i)

/-- The radial factor built by the inner function _R of Psi.R in _core.py:
const * (sqrt((2/(n a0))^3 (n-l-1)! / (2 n (n+l)!)) * exp(-r/(n a0)) *
(2 r/(n a0))^l * genlaguerre(n-l-1, 2 l+1)(r)).  The Laguerre polynomial is
evaluated at r itself in the source. -/
noncomputable def R_term (c : ℚ) (n l : ℕ) (a0 r : ℝ) : ℝ :=
  (c : ℝ) * (Real.sqrt ((2 / (n * a0)) ^ 3 * (Nat.factorial (n - l - 1)) /
      (2 * n * Nat.factorial (n + l))) *
    Real.exp (-r / (n * a0)) * (2 * r / (n * a0)) ^ l *
    genlaguerre (n - l - 1) (2 * l + 1) r)

/-- The callable returned by Psi.R for an already normalized state: a single
radial factor for scalar attributes, the sum of the factors otherwise. -/
noncomputable def R_fun (p : Psi) (a0 : ℝ) : ℝ → ℝ :=
  match p with
  | .scalar t => R_term t.c t.n t.l a0
  | .seq ts => fun r => (ts.map fun t => R_term t.c t.n t.l a0 r).sum

/-- Psi.R as a method call: the source rebinds self = self.normalize(),
which leaves the caller object untouched, and builds the callable from the
normalized copy.  The first component is the receiver state after the
call. -/
noncomputable def Psi.R (p : Psi) (a0 : ℝ) : Psi × (ℝ → ℝ) :=
  (p, R_fun p.normalize a0)

/-- Transcription of the radial formula of the spec (section 4.2), which
evaluates the generalized Laguerre polynomial at the scaled argument
2 r/(n a0); written only to be compared against the source formula. -/
noncomputable def R_termSpecFormula (c : ℚ) (n l : ℕ) (a0 r : ℝ) : ℝ :=
  (c : ℝ) * (Real.sqrt ((2 / (n * a0)) ^ 3 * (Nat.factorial (n - l - 1)) /
      (2 * n * Nat.factorial (n + l))) *
    Real.exp (-r / (n * a0)) * (2 * r / (n * a0)) ^ l *
    genlaguerre (n - l - 1) (2 * l + 1) (2 * r / (n * a0)))

/-- Spec-side radial function: the sum of the spec formula over the terms of
an (already normalized) state. -/
noncomputable def R_specFun (p : Psi) (a0 : ℝ) : ℝ → ℝ :=
  match p with
  | .scalar t => R_termSpecFormula t.c t.n t.l a0
  | .seq ts => fun r => (ts.map fun t => R_termSpecFormula t.c t.n t.l a0 r).sum

/-- Psi.P_rad as a method call: lambda r: r**2 * abs(self.R(a0)(r))**2; the
receiver is only read. -/
noncomputable def Psi.P_rad (p : Psi) (a0 : ℝ) : Psi × (ℝ → ℝ) :=
  (p, fun r => r ^ 2 * |(p.R a0).2 r| ^ 2)

/-- The single-term full wavefunction of _core.py: the radial factor (with
its constant) times the complex spherical harmonic Y(ml, l, theta, phi). -/
noncomputable def waveTerm (Y : ℤ → ℕ → ℝ → ℝ → ℂ) (c : ℚ) (n l : ℕ)
    (ml : ℤ) (a0 : ℝ) (r theta phi : ℝ) : ℂ :=
  (R_term c n l a0 r : ℂ) * Y ml l theta phi

/-- The callable returned by Psi.wave_function for an already normalized
state: one wave term for scalar attributes, their sum otherwise. -/
noncomputable def waveFun (Y : ℤ → ℕ → ℝ → ℝ → ℂ) (p : Psi) (a0 : ℝ) :
    ℝ → ℝ → ℝ → ℂ :=
  match p with
  | .scalar t => waveTerm Y t.c t.n t.l t.ml a0
  | .seq ts => fun r theta phi =>
      (ts.map fun t => waveTerm Y t.c t.n t.l t.ml a0 r theta phi).sum

/-- Psi.wave_function as a method call: again self = self.normalize() only
rebinds a local name. -/
noncomputable def Psi.wave_function (Y : ℤ → ℕ → ℝ → ℝ → ℂ) (p : Psi)
    (a0 : ℝ) : Psi × (ℝ → ℝ → ℝ → ℂ) :=
  (p, waveFun Y p.normalize a0)

/-- Psi.wave_function_prob as a method call: the squared absolute value of
the real part of the wavefunction when real is set, of the full complex
value otherwise. -/
noncomputable def Psi.wave_function_prob (Y : ℤ → ℕ → ℝ → ℝ → ℂ) (p : Psi)
    (a0 : ℝ) (real : Bool) : Psi × (ℝ → ℝ → ℝ → ℝ) :=
  (p, fun r theta phi =>
    if real then |((p.wave_function Y a0).2 r theta phi).re| ^ 2
    else Complex.abs ((p.wave_function Y a0).2 r theta phi) ^ 2)

/-- Psi.mean_r as a method call: quad(lambda r: r * self.P_rad(a0)(r), 0,
np.inf)[0], with the semi-infinite quadrature passed as the capability
quad. -/
noncomputable def Psi.mean_r (quad : (ℝ → ℝ) → ℝ) (p : Psi) (a0 : ℝ) :
    Psi × ℝ :=
  (p, quad fun r => r * (p.P_rad a0).2 r)

/-- Claim C9: evaluating the radial function, the full wavefunction, the
probability density, or the mean radius leaves the receiver state unchanged:
the source rebinds a local name to a fresh normalized copy and assigns no
attribute, and the returned callables are built from the normalized copy. -/
theorem evaluators_do_not_mutate_state (Y : ℤ → ℕ → ℝ → ℝ → ℂ)
    (quad : (ℝ → ℝ) → ℝ) (p : Psi) (a0 : ℝ) :
    (p.R a0).1 = p ∧ (p.wave_function Y a0).1 = p ∧
    (p.wave_function_prob Y a0 true).1 = p ∧
    (p.wave_function_prob Y a0 false).1 = p ∧
    (p.P_rad a0).1 = p ∧ (p.mean_r quad a0).1 = p ∧
    (p.R a0).2 = R_fun p.normalize a0 ∧
    (p.wave_function Y a0).2 = waveFun Y p.normalize a0 :=
  ⟨rfl, rfl, rfl, rfl, rfl, rfl, rfl, rfl⟩

/-- Claim C1: the claimed radial formula evaluates the generalized Laguerre
polynomial at the scaled argument 2 r/(n a0), but the source evaluates it at
the raw r.  For the state n = 3, l = 0, coefficient 1 (fixed by the internal
normalization), at a0 = 1 and r = 3, the code computes with the value
L(3) = -3/2 and the claimed formula with L(2) = -1, so the two radial
values differ. -/
theorem R_laguerre_argument_differs :
    (Psi.R (Psi.scalar (Term.mk 3 0 0 0 1)) 1).2 3 ≠
      R_specFun (Psi.scalar (Term.mk 3 0 0 0 1)).normalize 1 3 := by
  have hnorm : (Psi.scalar (Term.mk 3 0 0 0 1)).normalize =
      Psi.scalar (Term.mk 3 0 0 0 1) := by
    norm_num [Psi.normalize, Psi.constMap, Psi.sumSqConst]
  show R_fun (Psi.scalar (Term.mk 3 0 0 0 1)).normalize 1 3 ≠ _
  rw [hnorm]
  show R_term 1 3 0 1 3 ≠ R_termSpecFormula 1 3 0 1 3
  have he : 0 < Real.exp (-1) := Real.exp_pos _
  have h1 : (0 : ℝ) < Real.sqrt 16 := Real.sqrt_pos.mpr (by norm_num)
  have h2 : (0 : ℝ) < Real.sqrt 27 := Real.sqrt_pos.mpr (by norm_num)
  have h3 : (0 : ℝ) < Real.sqrt 6 := Real.sqrt_pos.mpr (by norm_num)
  have h4 : (0 : ℝ) < Real.sqrt ((Nat.factorial 3 : ℕ) : ℝ) :=
    Real.sqrt_pos.mpr (by norm_num [Nat.factorial])
  have hK : 0 < Real.sqrt 16 / Real.sqrt 27 /
      (Real.sqrt 6 * Real.sqrt ((Nat.factorial 3 : ℕ) : ℝ)) *
      Real.exp (-1) :=
    mul_pos (div_pos (div_pos h1 h2) (mul_pos h3 h4)) he
  simp only [R_term, R_termSpecFormula, genlaguerre]
  norm_num [Finset.sum_range_succ]
  intro h
  nlinarith [h, hK]

end QuantumPsi
